import Mathlib

/-!
# Verification of the Selection State Engine of `Random-tvshows.py`

This file is a shallow embedding of the state-management and recovery engine
of the `ShowSelector` class in `src/Random-tvshows.py`, together with proofs
and refutations of the specification's claims about it.

Modelling conventions:
* Python lists become Lean `List`s; the selection-record dict becomes the
  structure `SelRecord`.
* `random.choice` is modelled by an explicit index parameter `i`; the chosen
  element is `pool[i % pool.length]`, so every element is choosable.
* `datetime.datetime.now().isoformat()` is modelled by an explicit opaque
  timestamp string parameter.
* Operations that can raise an uncaught Python exception return
  `Except PyExc _`; a `.error` value models the process dying with an
  uncaught exception.
* Persisted JSON documents are modelled by the inductive `JValue`
  (JSON numbers are modelled as integers: fractional values play no role
  in any claim).  A file body is `Option JValue`: `none` stands for a body
  that `json.load` rejects with `JSONDecodeError`, `some v` for one that
  parses to `v`.
-/

namespace TvShows

/-- The Python exception classes that the engine's code can raise or catch. -/
inductive PyExc where
  /-- `json.JSONDecodeError` -/
  | json
  /-- `KeyError` -/
  | key
  /-- `ValueError` -/
  | val
  /-- `TypeError` -/
  | type
  /-- `AttributeError` -/
  | attr
  /-- `ZeroDivisionError` -/
  | zeroDiv
deriving DecidableEq, Repr

/-- The selection record built by `select_show`: the Python dict with keys
`show`, `timestamp` and `action`. -/
structure SelRecord where
  «show» : String
  timestamp : String
  action : String
deriving DecidableEq, Repr

/-- The in-memory state of a `ShowSelector` whose four sequences are
well-typed (as they always are when the engine starts from a seed list with
no persisted file): `original_order`, `remaining_shows`, `watched_shows`,
`total_shows`, `history`. -/
structure State where
  original_order : List String
  remaining_shows : List String
  watched_shows : List SelRecord
  total_shows : Nat
  history : List SelRecord
deriving DecidableEq, Repr

/-- `__init__` when no persisted file exists: both `original_order` and
`remaining_shows` are copies of the seed list, the logs are empty and
`total_shows = len(shows)`. -/
def initState (shows : List String) : State :=
  ⟨shows, shows, [], shows.length, []⟩

/-- Python `str.lower()` (ASCII case folding; the engine's names are plain
text, and only equality of lowered strings matters to the code). -/
def pyLower (s : String) : String := ⟨s.data.map Char.toLower⟩

/-- Python `str.strip()`: remove leading and trailing whitespace. -/
def pyStrip (s : String) : String :=
  ⟨((s.data.dropWhile Char.isWhitespace).reverse.dropWhile Char.isWhitespace).reverse⟩

/-- Python `list.index(x)` for lists of strings: the index of the first
occurrence, `none` when absent (where Python raises `ValueError`). -/
def listIndex (x : String) : List String → Option Nat
  | [] => none
  | a :: as => if a = x then some 0 else (listIndex x as).map (· + 1)

/-- Python `list.remove(x)`: drop the first occurrence of `x`, raising
`ValueError` when `x` is absent. -/
def pyRemove {α : Type} [DecidableEq α] (x : α) : List α → Except PyExc (List α)
  | [] => .error .val
  | a :: as => if a = x then .ok as else (pyRemove x as).map (a :: ·)

/-- The pure result of `list.remove(x)` when `x` is present: the list with
the first occurrence of `x` dropped. -/
def removeFirst {α : Type} [DecidableEq α] (x : α) : List α → List α
  | [] => []
  | a :: as => if a = x then as else a :: removeFirst x as

/-- Python `list.insert(i, x)`: insert at position `i`, clamping `i` to the
list's length. -/
def pyInsert {α : Type} (l : List α) (i : Nat) (x : α) : List α :=
  l.take i ++ x :: l.drop i

/-- `add_show` (`src/Random-tvshows.py`, lines 37-51). -/
def add_show (st : State) (show_name : String) : Bool × State :=
  let show_name := pyStrip show_name
  if show_name = "" then (false, st)
  else if st.original_order.any (fun s => pyLower show_name = pyLower s) then
    (false, st)
  else
    let oo := st.original_order ++ [show_name]
    (true,
      { st with
        original_order := oo
        remaining_shows := st.remaining_shows ++ [show_name]
        total_shows := oo.length })

/-- `select_show` (lines 53-70).  `i` models the random choice, `ts` the
timestamp.  `random.choice` raises `IndexError` only on an empty sequence,
which the guard excludes, and `list.remove` cannot fail because the chosen
element is drawn from the list; both facts are provable from this
definition (`select_show` always returns `.ok`). -/
def select_show (st : State) (i : Nat) (ts : String) :
    Except PyExc (Option SelRecord × State) :=
  match st.remaining_shows with
  | [] => .ok (none, st)
  | x :: xs => do
    let pool := x :: xs
    let selected := pool.get ⟨i % pool.length, Nat.mod_lt _ (Nat.succ_pos xs.length)⟩
    let r : SelRecord := ⟨selected, ts, "watched"⟩
    let rem' ← pyRemove selected pool
    .ok (some r,
      { st with
        watched_shows := st.watched_shows ++ [r]
        remaining_shows := rem'
        history := st.history ++ [r] })

/-- The insertion-position loop of `undo_last` (lines 85-91): the index of
the first element of the remaining list whose first index in
`original_order` strictly exceeds `origIdx`, or the list's length when no
such element exists.  Each iteration evaluates
`self.original_order.index(show)` outside any handler, so an element absent
from `original_order` raises an uncaught `ValueError`. -/
def findInsertIdx (oo : List String) (origIdx : Nat) :
    List String → Except PyExc Nat
  | [] => .ok 0
  | a :: rest =>
    match listIndex a oo with
    | none => .error .val
    | some r =>
      if origIdx < r then .ok 0
      else (findInsertIdx oo origIdx rest).map (· + 1)

/-- `undo_last` (lines 72-97).  `history.pop()` becomes taking the last
element; the `try/except ValueError` around `original_order.index` becomes
`Option.getD`; the final `watched_shows.remove(last_selection)` is outside
any handler and can raise. -/
def undo_last (st : State) : Except PyExc (Option SelRecord × State) :=
  match st.history.getLast? with
  | none => .ok (none, st)
  | some last => do
    let history' := st.history.dropLast
    let s := last.«show»
    let original_index := (listIndex s st.original_order).getD st.original_order.length
    let insert_index ← findInsertIdx st.original_order original_index st.remaining_shows
    let watched' ← pyRemove last st.watched_shows
    .ok (some last,
      { st with
        remaining_shows := pyInsert st.remaining_shows insert_index s
        watched_shows := watched'
        history := history' })

/-- The dict returned by `get_progress` (lines 99-108), with the percentage
as an exact rational. -/
structure Progress where
  watched : Nat
  remaining : Nat
  total : Nat
  percentage : ℚ
deriving DecidableEq, Repr

/-- Python `/`, raising `ZeroDivisionError` on a zero divisor. -/
def pyDiv (a b : ℚ) : Except PyExc ℚ :=
  if b = 0 then .error .zeroDiv else .ok (a / b)

/-- Python's `round` to an integer: round half to even (modelled on exact
rationals; the binary-float representation is abstracted away). -/
def roundHalfEven (q : ℚ) : ℤ :=
  if q - ⌊q⌋ < 1/2 then ⌊q⌋
  else if 1/2 < q - ⌊q⌋ then ⌊q⌋ + 1
  else if ⌊q⌋ % 2 = 0 then ⌊q⌋ else ⌊q⌋ + 1

/-- Python `round(q, 1)`. -/
def pyRound1 (q : ℚ) : ℚ := (roundHalfEven (q * 10) : ℚ) / 10

/-- `get_progress` (lines 99-108): the percentage is
`round((len(watched) / total) * 100, 1)` when `total` is truthy and `0.0`
otherwise. -/
def get_progress (st : State) : Except PyExc Progress :=
  if st.total_shows ≠ 0 then do
    let frac ← pyDiv (st.watched_shows.length : ℚ) (st.total_shows : ℚ)
    .ok ⟨st.watched_shows.length, st.remaining_shows.length, st.total_shows,
         pyRound1 (frac * 100)⟩
  else
    .ok ⟨st.watched_shows.length, st.remaining_shows.length, st.total_shows, 0⟩

/-- The states an engine can reach from a fresh construction (seed list,
no persisted file) under any sequence of `add_show` / `select_show` /
`undo_last` calls that do not kill the process. -/
inductive Reachable (seed : List String) : State → Prop where
  | init : Reachable seed (initState seed)
  | add (name : String) (st : State) :
      Reachable seed st → Reachable seed (add_show st name).2
  | select (i : Nat) (ts : String) (st st' : State) (r : Option SelRecord) :
      Reachable seed st → select_show st i ts = .ok (r, st') →
      Reachable seed st'
  | undo (st st' : State) (r : Option SelRecord) :
      Reachable seed st → undo_last st = .ok (r, st') →
      Reachable seed st'

/-! ## The persistence layer: JSON values and `load_progress` -/

/-- Parsed JSON documents (and, equally, the Python values the engine holds
after adopting one).  Numbers are modelled as integers: fractional values
play no role in any claim.  `obj` models a dict produced by `json.load`,
whose keys are unique. -/
inductive JValue where
  | null
  | bool (b : Bool)
  | num (n : Int)
  | str (s : String)
  | arr (elts : List JValue)
  | obj (fields : List (String × JValue))

/-- Python truthiness of a JSON-decoded value. -/
def jTruthy : JValue → Bool
  | .null => false
  | .bool b => b
  | .num n => n != 0
  | .str s => !s.data.isEmpty
  | .arr l => !l.isEmpty
  | .obj l => !l.isEmpty

/-- `leadsList key l`: `key` is an initial segment of `l`. -/
def leadsList : List Char → List Char → Bool
  | [], _ => true
  | _ :: _, [] => false
  | a :: as, b :: bs => a = b && leadsList as bs

/-- `occursIn key l`: `key` occurs contiguously inside `l` (Python's
substring containment). -/
def occursIn (key : List Char) : List Char → Bool
  | [] => leadsList key []
  | b :: rest => leadsList key (b :: rest) || occursIn key rest

/-- Python `key in v` for a string `key`: key membership for dicts, element
equality for lists, substring containment for strings, `TypeError`
otherwise. -/
def jContains (v : JValue) (key : String) : Except PyExc Bool :=
  match v with
  | .obj fields => .ok (fields.any (fun p => p.1 = key))
  | .arr elts => .ok (elts.any (fun e =>
      match e with | .str s => s = key | _ => false))
  | .str s => .ok (occursIn key.toList s.toList)
  | _ => .error .type

/-- Python `v[key]` for a string `key`: dict lookup (`KeyError` when the
key is missing), `TypeError` for every non-dict. -/
def jSubscript (v : JValue) (key : String) : Except PyExc JValue :=
  match v with
  | .obj fields =>
    match fields.find? (fun p => p.1 = key) with
    | some p => .ok p.2
    | none => .error .key
  | _ => .error .type

/-- Python `len(v)`: defined for lists, strings and dicts, `TypeError`
otherwise. -/
def jlen : JValue → Except PyExc Nat
  | .arr l => .ok l.length
  | .str s => .ok s.length
  | .obj l => .ok l.length
  | _ => .error .type

/-- Python `v.get(key, dflt)`: only dicts have `.get`
(`AttributeError` otherwise). -/
def jGetD (v : JValue) (key : String) (dflt : JValue) : Except PyExc JValue :=
  match v with
  | .obj fields =>
    .ok (((fields.find? (fun p => p.1 = key)).map Prod.snd).getD dflt)
  | _ => .error .attr

/-- Python `for s in v`: list elements, a string's characters, a dict's
keys; `TypeError` otherwise. -/
def pyIter : JValue → Except PyExc (List JValue)
  | .arr l => .ok l
  | .str s => .ok (s.toList.map (fun c => .str (String.singleton c)))
  | .obj l => .ok (l.map (fun p => .str p.1))
  | _ => .error .type

/-- `isinstance(v, list)`. -/
def isArr : JValue → Bool
  | .arr _ => true
  | _ => false

/-- The in-memory state right after `load_progress`, before any later
operation: the four sequences hold whatever Python values were adopted
(line 147-150, 172-175, 202-205 or 228-231 of the source), so they are
kept at the `JValue` level. -/
structure RawState where
  original_order : JValue
  remaining_shows : JValue
  watched_shows : JValue
  history : JValue
  total_shows : Nat

/-- `required_keys` (line 134). -/
def required_keys : List String := ["original_order", "remaining", "watched", "history"]

/-- `all(key in data for key in required_keys)`: short-circuits at the
first missing key; any `TypeError` from `in` escapes. -/
def checkKeys (v : JValue) : List String → Except PyExc Bool
  | [] => .ok true
  | k :: ks => do
    let b ← jContains v k
    if b then checkKeys v ks else .ok false

/-- The type-validation conjunction of lines 139-144: short-circuiting
`isinstance(data[k], list)` checks. -/
def checkTypes (v : JValue) : Except PyExc Bool := do
  let a ← jSubscript v "original_order"
  if !isArr a then .ok false else do
  let b ← jSubscript v "remaining"
  if !isArr b then .ok false else do
  let c ← jSubscript v "watched"
  if !isArr c then .ok false else do
  let d ← jSubscript v "history"
  .ok (isArr d)

/-- The four assignments plus `total_shows = len(...)` shared by the adopt
paths (lines 147-151 and 172-176). -/
def adoptFields (v : JValue) : Except PyExc RawState := do
  let oo ← jSubscript v "original_order"
  let rem ← jSubscript v "remaining"
  let w ← jSubscript v "watched"
  let h ← jSubscript v "history"
  let n ← jlen oo
  .ok ⟨oo, rem, w, h, n⟩

/-- The body of the outer `try` of `load_progress` (lines 130-151): parse,
key check (raising `KeyError`), type check (raising `ValueError`), adopt.
The argument is the primary file's parse outcome (`none` =
`JSONDecodeError`). -/
def primaryTry (pdata : Option JValue) : Except PyExc RawState :=
  match pdata with
  | none => .error .json
  | some v => do
    let kok ← checkKeys v required_keys
    if !kok then .error .key
    else do
      let tok ← checkTypes v
      if !tok then .error .val
      else adoptFields v

/-- The backup-loading `try` body (lines 165-180).  The backup file read
here is the corrupted primary that was just renamed onto the backup path,
so its content equals `pdata`.  Only the key check is repeated; the
type-validation of lines 139-144 is not.  (When the primary failed to
parse, the Python name `required_keys` is not even bound at line 169, but
re-parsing the renamed file raises `JSONDecodeError` first, so that
`NameError` is unreachable.) -/
def backupTry (pdata : Option JValue) : Except PyExc RawState :=
  match pdata with
  | none => .error .json
  | some v => do
    let kok ← checkKeys v required_keys
    if !kok then .error .key
    else adoptFields v

/-- `data.get(key, []) if data else []` (lines 188-190), with `data` the
primary parse outcome. -/
def salvage (data : Option JValue) (key : String) : Except PyExc JValue :=
  match data with
  | some d => if jTruthy d then jGetD d key (.arr []) else .ok (.arr [])
  | none => .ok (.arr [])

/-- Using a salvaged value as the left operand of the Python list
concatenation `remaining + watched_shows` (line 194): `TypeError` unless it
is a list. -/
def asPyList (v : JValue) : Except PyExc (List JValue) :=
  match v with
  | .arr l => .ok l
  | _ => .error .type

/-- Python `s in ro` for `ro` a list of strings (the membership tests of
the filters at lines 213-219): true exactly for a string value occurring
in `ro`; never an error. -/
def strMemFilter (ro : List String) : JValue → Bool
  | .str t => t ∈ ro
  | _ => false

/-- The reconstruction loop of lines 195-200: `seen` is the set of
lowercased names already kept, `acc` the `recovered_order` built so far.
`show.lower()` raises `AttributeError` on a non-string element. -/
def recoverOrderLoop (seen acc : List String) : List JValue → Except PyExc (List String)
  | [] => .ok acc
  | v :: rest =>
    match v with
    | .str s =>
      if pyLower s ∈ seen then recoverOrderLoop seen acc rest
      else recoverOrderLoop (pyLower s :: seen) (acc ++ [s]) rest
    | _ => .error .attr

/-- The Data-Recovery block (lines 187-219): salvage the three sequences,
extract the watched shows, rebuild `original_order` with case-insensitive
first-seen deduplication, then filter the remaining and watched sequences
to items of the rebuilt order.  `history` is adopted raw, unchecked. -/
def dataRecovery (data : Option JValue) (initial_shows : List String) :
    Except PyExc RawState := do
  let remaining ← salvage data "remaining"
  let watched ← salvage data "watched"
  let history ← salvage data "history"
  let wElems ← pyIter watched
  let watchedShows ← wElems.mapM (fun s => jSubscript s "show")
  let remList ← asPyList remaining
  let allShows := remList ++ watchedShows ++ initial_shows.map JValue.str
  let recovered_order ← recoverOrderLoop [] [] allShows
  let remaining' := remList.filter (strMemFilter recovered_order)
  let wPairs ← wElems.mapM (fun s => do
    let sh ← jSubscript s "show"
    Except.ok (s, sh))
  let watched' := (wPairs.filter (fun p => strMemFilter recovered_order p.2)).map
    Prod.fst
  .ok ⟨.arr (recovered_order.map .str), .arr remaining', .arr watched', history,
       recovered_order.length⟩

/-- The Full-Reset state of lines 228-232. -/
def resetRaw (initial_shows : List String) : RawState :=
  ⟨.arr (initial_shows.map .str), .arr (initial_shows.map .str), .arr [], .arr [],
   initial_shows.length⟩

/-- `save_progress` (lines 110-122): the JSON document written to the
primary path. -/
def serializeState (st : RawState) : JValue :=
  .obj [("original_order", st.original_order), ("remaining", st.remaining_shows),
        ("watched", st.watched_shows), ("history", st.history)]

/-- The terminal state of the load state machine. -/
inductive LoadOutcome where
  | adopted
  | adoptedFromBackup
  | recovered
  | reset
deriving DecidableEq, Repr

/-- What `load_progress` leaves behind: the adopted in-memory state and the
file system.  `primaryAfter`/`backupAfter` are `none` when the file does
not exist, `some c` when it exists with body `c` (`c = none` meaning a body
that does not parse). -/
structure LoadResult where
  outcome : LoadOutcome
  state : RawState
  primaryAfter : Option (Option JValue)
  backupAfter : Option (Option JValue)

/-- The exception classes caught by the outer handler of `load_progress`
(line 153): `json.JSONDecodeError`, `KeyError`, `ValueError`.  Anything
else — in particular `TypeError` — escapes the constructor. -/
def caughtByLoad : PyExc → Bool
  | .json => true
  | .key => true
  | .val => true
  | _ => false

/-- `load_progress` (lines 124-234), invoked by the constructor when the
primary file exists.  `pdata` is the primary file's parse outcome,
`priorBackup` whatever sat at the backup path beforehand.  On a caught
Parse/Validate failure the primary is renamed onto the backup path
(overwriting `priorBackup`), so the backup that is then examined holds
`pdata` itself.  Only the recovery and reset paths reach the final
`save_progress` (line 234); backup adoption returns at line 180 leaving no
primary file. -/
def loadProgress (pdata : Option JValue) (priorBackup : Option (Option JValue))
    (initial_shows : List String) : Except PyExc LoadResult :=
  match primaryTry pdata with
  | .ok st => .ok ⟨.adopted, st, some pdata, priorBackup⟩
  | .error e =>
    if caughtByLoad e then
      match backupTry pdata with
      | .ok st => .ok ⟨.adoptedFromBackup, st, none, some pdata⟩
      | .error _ =>
        match dataRecovery pdata initial_shows with
        | .ok st => .ok ⟨.recovered, st, some (some (serializeState st)), some pdata⟩
        | .error _ =>
          let st := resetRaw initial_shows
          .ok ⟨.reset, st, some (some (serializeState st)), some pdata⟩
    else .error e

/-- The JSON encoding of a selection record, as written by `save_progress`
and as read back by `load_progress`. -/
def encodeRec (r : SelRecord) : JValue :=
  .obj [("show", .str r.«show»), ("timestamp", .str r.timestamp),
        ("action", .str r.action)]

/-- `raw` is the `JValue`-level image of the well-typed engine state `st`:
this is the bridge between an adopted `RawState` and the typed operations. -/
def reprState (raw : RawState) (st : State) : Prop :=
  raw.original_order = .arr (st.original_order.map .str) ∧
  raw.remaining_shows = .arr (st.remaining_shows.map .str) ∧
  raw.watched_shows = .arr (st.watched_shows.map encodeRec) ∧
  raw.history = .arr (st.history.map encodeRec) ∧
  raw.total_shows = st.total_shows

/-! ## Invariants of the typed engine state -/

/-- The rank of `x` in the canonical order `oo`: its first index, with the
absent case defaulting to `oo.length` exactly as in `undo_last`. -/
def rank (oo : List String) (x : String) : Nat :=
  (listIndex x oo).getD oo.length

/-- The remaining pool is (strictly) sorted by rank in `original_order`. -/
def SortedByRank (oo rem : List String) : Prop :=
  rem.Pairwise (fun a b => rank oo a < rank oo b)

/-- The items of the remaining pool together with the items of the watched
log. -/
def itemsOf (st : State) : List String :=
  st.remaining_shows ++ st.watched_shows.map (fun r => r.«show»)

/-- The strengthened invariant of states reachable from a duplicate-free
seed: the two logs coincide, the combined items are duplicate-free and are
exactly the items of `original_order`, and the pool is rank-sorted. -/
structure Inv (st : State) : Prop where
  logsEq : st.watched_shows = st.history
  itemsNodup : (itemsOf st).Nodup
  itemsIff : ∀ x, x ∈ itemsOf st ↔ x ∈ st.original_order
  ooNodup : st.original_order.Nodup
  sorted : SortedByRank st.original_order st.remaining_shows

/-- The weaker invariant that holds from every seed list: pool items and
logged items lie in `original_order`, and the two logs agree up to
permutation. -/
structure WInv (st : State) : Prop where
  remSub : ∀ x ∈ st.remaining_shows, x ∈ st.original_order
  histSub : ∀ r ∈ st.history, r.«show» ∈ st.original_order
  logsPerm : st.history.Perm st.watched_shows

/-- The insertion position as the specification words it: the index of the
first remaining element whose `OriginalOrder` rank exceeds the restored
item's rank, or the end of the list when no such element exists.  Stated
independently of the loop `findInsertIdx` so the two can be compared. -/
def insertPosSpec (oo rem : List String) (x : String) : Nat :=
  (rem.takeWhile (fun a => ! decide (rank oo x < rank oo a))).length

/-- Case-insensitive first-seen deduplication with an explicit set of
already-seen lowercased keys: keep an element iff its lowercased form has
not occurred before.  This is the specification's
"deduplicating case-insensitively while preserving first-seen order",
stated independently of the recovery loop's accumulator. -/
def dedupCIFrom (seen : List String) : List String → List String
  | [] => []
  | s :: rest =>
    if pyLower s ∈ seen then dedupCIFrom seen rest
    else s :: dedupCIFrom (pyLower s :: seen) rest

/-- Case-insensitive first-seen deduplication of a list. -/
def dedupCI (l : List String) : List String := dedupCIFrom [] l

/-! ### Lemmas about the list primitives -/

theorem listIndex_cons_pos {x a : String} {as : List String} (h : a = x) :
    listIndex x (a :: as) = some 0 := by
  simp [listIndex, h]

theorem listIndex_cons_neg {x a : String} {as : List String} (h : a ≠ x) :
    listIndex x (a :: as) = (listIndex x as).map (· + 1) := by
  simp [listIndex, h]

theorem listIndex_eq_none {x : String} {l : List String} :
    listIndex x l = none ↔ x ∉ l := by
  induction l with
  | nil => simp [listIndex]
  | cons a as ih =>
    by_cases h : a = x
    · rw [listIndex_cons_pos h]
      simp [h]
    · rw [listIndex_cons_neg h]
      simp [Option.map_eq_none', ih, Ne.symm h]

theorem listIndex_isSome_of_mem {x : String} {l : List String} (h : x ∈ l) :
    ∃ i, listIndex x l = some i := by
  cases hi : listIndex x l with
  | none => exact absurd (listIndex_eq_none.1 hi) (not_not_intro h)
  | some i => exact ⟨i, rfl⟩

theorem listIndex_lt_length {x : String} {l : List String} {i : Nat}
    (h : listIndex x l = some i) : i < l.length := by
  induction l generalizing i with
  | nil => simp [listIndex] at h
  | cons a as ih =>
    by_cases hax : a = x
    · rw [listIndex_cons_pos hax] at h
      simp at h
      simp [← h]
    · rw [listIndex_cons_neg hax] at h
      simp at h
      obtain ⟨j, hj, rfl⟩ := h
      have := ih hj
      simp only [List.length_cons]
      omega

theorem listIndex_append_left {x : String} {l l' : List String} (h : x ∈ l) :
    listIndex x (l ++ l') = listIndex x l := by
  induction l with
  | nil => simp at h
  | cons a as ih =>
    by_cases hax : a = x
    · rw [List.cons_append, listIndex_cons_pos hax, listIndex_cons_pos hax]
    · have hmem : x ∈ as := by
        cases h with
        | head => exact absurd rfl hax
        | tail _ h => exact h
      rw [List.cons_append, listIndex_cons_neg hax, listIndex_cons_neg hax, ih hmem]

theorem listIndex_append_right {x : String} {l l' : List String} (h : x ∉ l) :
    listIndex x (l ++ l') = (listIndex x l').map (· + l.length) := by
  induction l with
  | nil => simp
  | cons a as ih =>
    have hax : a ≠ x := fun e => h (e ▸ List.mem_cons_self a as)
    have hmem : x ∉ as := fun m => h (List.mem_cons_of_mem a m)
    rw [List.cons_append, listIndex_cons_neg hax, ih hmem, Option.map_map]
    cases listIndex x l' with
    | none => rfl
    | some n =>
      simp only [Option.map_some', Function.comp_apply, List.length_cons]
      congr 1

theorem listIndex_inj {x y : String} {l : List String} {i : Nat}
    (hx : listIndex x l = some i) (hy : listIndex y l = some i) : x = y := by
  induction l generalizing i with
  | nil => simp [listIndex] at hx
  | cons a as ih =>
    by_cases hax : a = x <;> by_cases hay : a = y
    · exact hax ▸ hay ▸ rfl
    · rw [listIndex_cons_pos hax] at hx
      rw [listIndex_cons_neg hay] at hy
      simp at hx
      simp at hy
      obtain ⟨j, _, hj⟩ := hy
      omega
    · rw [listIndex_cons_neg hax] at hx
      rw [listIndex_cons_pos hay] at hy
      simp at hx
      simp at hy
      obtain ⟨j, _, hj⟩ := hx
      omega
    · rw [listIndex_cons_neg hax] at hx
      rw [listIndex_cons_neg hay] at hy
      simp at hx hy
      obtain ⟨j, hj, hji⟩ := hx
      obtain ⟨k, hk, hki⟩ := hy
      have : j = k := by omega
      exact ih hj (this ▸ hk)

theorem rank_lt_length_of_mem {x : String} {oo : List String} (h : x ∈ oo) :
    rank oo x < oo.length := by
  obtain ⟨i, hi⟩ := listIndex_isSome_of_mem h
  simpa [rank, hi] using listIndex_lt_length hi

theorem rank_append_of_mem {x : String} {oo l' : List String} (h : x ∈ oo) :
    rank (oo ++ l') x = rank oo x := by
  obtain ⟨i, hi⟩ := listIndex_isSome_of_mem h
  rw [rank, rank, listIndex_append_left h, hi]
  rfl

theorem rank_append_self {x : String} {oo : List String} (h : x ∉ oo) :
    rank (oo ++ [x]) x = oo.length := by
  rw [rank, listIndex_append_right h, listIndex_cons_pos rfl]
  simp

theorem rank_inj {x y : String} {oo : List String} (hx : x ∈ oo) (hy : y ∈ oo)
    (h : rank oo x = rank oo y) : x = y := by
  obtain ⟨i, hi⟩ := listIndex_isSome_of_mem hx
  obtain ⟨j, hj⟩ := listIndex_isSome_of_mem hy
  rw [rank, rank, hi, hj] at h
  simp at h
  exact listIndex_inj hi (h ▸ hj)

theorem removeFirst_decomp {α : Type} [DecidableEq α] {x : α} {l : List α}
    (h : x ∈ l) :
    ∃ l₁ l₂, l = l₁ ++ x :: l₂ ∧ x ∉ l₁ ∧ removeFirst x l = l₁ ++ l₂ := by
  induction l with
  | nil => simp at h
  | cons a as ih =>
    by_cases hax : a = x
    · exact ⟨[], as, by simp [hax], by simp, by simp [removeFirst, hax]⟩
    · have : x ∈ as := by
        cases h with
        | head => exact absurd rfl hax
        | tail _ h => exact h
      obtain ⟨l₁, l₂, hl, hx₁, hrf⟩ := ih this
      exact ⟨a :: l₁, l₂, by simp [hl], by simp [Ne.symm hax, hx₁],
        by simp [removeFirst, hax, hrf]⟩

theorem removeFirst_sublist {α : Type} [DecidableEq α] (x : α) (l : List α) :
    List.Sublist (removeFirst x l) l := by
  induction l with
  | nil => exact List.Sublist.refl []
  | cons a as ih =>
    by_cases hax : a = x
    · rw [removeFirst, if_pos hax]
      exact (List.Sublist.refl as).cons a
    · rw [removeFirst, if_neg hax]
      exact ih.cons₂ a

theorem perm_removeFirst {α : Type} [DecidableEq α] {x : α} {l : List α}
    (h : x ∈ l) : l.Perm (x :: removeFirst x l) := by
  obtain ⟨l₁, l₂, hl, _, hrf⟩ := removeFirst_decomp h
  rw [hrf, hl]
  exact List.perm_middle

theorem removeFirst_append_not_mem {α : Type} [DecidableEq α] {x : α}
    {l l' : List α} (h : x ∉ l) :
    removeFirst x (l ++ x :: l') = l ++ l' := by
  induction l with
  | nil => simp [removeFirst]
  | cons a as ih =>
    have hax : a ≠ x := fun e => h (e ▸ List.mem_cons_self a as)
    have : x ∉ as := fun m => h (List.mem_cons_of_mem a m)
    simp [removeFirst, hax, ih this]

theorem pyRemove_eq_ok {α : Type} [DecidableEq α] {x : α} {l : List α}
    (h : x ∈ l) : pyRemove x l = .ok (removeFirst x l) := by
  induction l with
  | nil => simp at h
  | cons a as ih =>
    by_cases hax : a = x
    · simp [pyRemove, removeFirst, hax]
    · have hmem : x ∈ as := by
        cases h with
        | head => exact absurd rfl hax
        | tail _ h => exact h
      rw [pyRemove, removeFirst, if_neg hax, if_neg hax, ih hmem]
      rfl

theorem pyRemove_eq_error {α : Type} [DecidableEq α] {x : α} {l : List α}
    (h : x ∉ l) : pyRemove x l = .error .val := by
  induction l with
  | nil => rfl
  | cons a as ih =>
    have hax : ¬ a = x := fun e => h (e ▸ List.mem_cons_self a as)
    have hmem : x ∉ as := fun m => h (List.mem_cons_of_mem a m)
    rw [pyRemove, if_neg hax, ih hmem]
    rfl

theorem mem_pyInsert {α : Type} {y x : α} {l : List α} {i : Nat} :
    y ∈ pyInsert l i x ↔ y = x ∨ y ∈ l := by
  simp only [pyInsert, List.mem_append, List.mem_cons]
  constructor
  · rintro (h | rfl | h)
    · exact Or.inr (List.mem_of_mem_take h)
    · exact Or.inl rfl
    · exact Or.inr (List.mem_of_mem_drop h)
  · rintro (rfl | h)
    · exact Or.inr (Or.inl rfl)
    · have h' : y ∈ l.take i ++ l.drop i := by
        rw [List.take_append_drop]
        exact h
      rcases List.mem_append.1 h' with h' | h'
      · exact Or.inl h'
      · exact Or.inr (Or.inr h')

theorem pyInsert_at_split {α : Type} (pre suf : List α) (x : α) :
    pyInsert (pre ++ suf) pre.length x = pre ++ x :: suf := by
  simp [pyInsert, List.take_left, List.drop_left]

theorem pyInsert_cons_succ {α : Type} (a : α) (l : List α) (q : Nat) (x : α) :
    pyInsert (a :: l) (q + 1) x = a :: pyInsert l q x := by
  simp [pyInsert]

theorem rank_eq_of_listIndex {a : String} {oo : List String} {i : Nat}
    (h : listIndex a oo = some i) : rank oo a = i := by
  simp [rank, h]

theorem rank_cons_head (a : String) (as : List String) : rank (a :: as) a = 0 := by
  rw [rank, listIndex_cons_pos rfl]
  rfl

theorem rank_cons_ne {a x : String} {as : List String} (hne : a ≠ x)
    (hx : x ∈ as) : rank (a :: as) x = rank as x + 1 := by
  obtain ⟨i, hi⟩ := listIndex_isSome_of_mem hx
  rw [rank, rank, listIndex_cons_neg hne, hi]
  rfl

/-- A duplicate-free list is strictly sorted by its own first indices. -/
theorem sortedByRank_self {l : List String} (h : l.Nodup) : SortedByRank l l := by
  induction l with
  | nil => exact List.Pairwise.nil
  | cons a as ih =>
    obtain ⟨ha, hnd⟩ := List.nodup_cons.1 h
    refine List.Pairwise.cons ?_ ?_
    · intro b hb
      have hne : a ≠ b := fun e => ha (e ▸ hb)
      rw [rank_cons_head, rank_cons_ne hne hb]
      omega
    · refine (ih hnd).imp_of_mem ?_
      intro x y hx hy hxy
      have hax : a ≠ x := fun e => ha (e ▸ hx)
      have hay : a ≠ y := fun e => ha (e ▸ hy)
      rw [rank_cons_ne hax hx, rank_cons_ne hay hy]
      omega

theorem findInsertIdx_isOk (j : Nat) {oo rem : List String}
    (h : ∀ a ∈ rem, a ∈ oo) : ∃ p, findInsertIdx oo j rem = .ok p := by
  induction rem with
  | nil => exact ⟨0, rfl⟩
  | cons a rest ih =>
    obtain ⟨i, hi⟩ := listIndex_isSome_of_mem (h a (List.mem_cons_self a rest))
    obtain ⟨q, hq⟩ := ih (fun b hb => h b (List.mem_cons_of_mem a hb))
    by_cases hj : j < i
    · exact ⟨0, by simp only [findInsertIdx, hi]; rw [if_pos hj]⟩
    · exact ⟨q + 1, by simp only [findInsertIdx, hi]; rw [if_neg hj, hq]; rfl⟩

/-- The insertion loop lands exactly at the boundary of a rank-split of the
pool: everything before has rank at most `j`, the first element after (if
any) has rank above `j`. -/
theorem findInsertIdx_split {oo : List String} {j : Nat} (pre suf : List String)
    (hpre : ∀ a ∈ pre, a ∈ oo ∧ rank oo a ≤ j)
    (hsuf : suf = [] ∨ ∃ b bs, suf = b :: bs ∧ b ∈ oo ∧ j < rank oo b) :
    findInsertIdx oo j (pre ++ suf) = .ok pre.length := by
  induction pre with
  | nil =>
    rcases hsuf with rfl | ⟨b, bs, rfl, hb, hjb⟩
    · rfl
    · obtain ⟨i, hi⟩ := listIndex_isSome_of_mem hb
      have hrb : rank oo b = i := rank_eq_of_listIndex hi
      have hcond : j < i := by omega
      rw [List.nil_append]
      simp only [findInsertIdx, hi]
      rw [if_pos hcond]
      rfl
  | cons a pre' ih =>
    obtain ⟨ha, hra⟩ := hpre a (List.mem_cons_self a pre')
    obtain ⟨i, hi⟩ := listIndex_isSome_of_mem ha
    have hri : rank oo a = i := rank_eq_of_listIndex hi
    have hrec := ih (fun b hb => hpre b (List.mem_cons_of_mem a hb))
    have hcond : ¬ j < i := by omega
    rw [List.cons_append]
    simp only [findInsertIdx, hi]
    rw [if_neg hcond, hrec]
    rfl

/-- Inserting an element of rank `j` at the position computed by the loop
preserves strict rank-sortedness, provided no pool element shares rank `j`. -/
theorem findInsertIdx_sorted_insert {oo rem : List String} {j p : Nat} {s : String}
    (hfind : findInsertIdx oo j rem = .ok p)
    (hsort : rem.Pairwise (fun a b => rank oo a < rank oo b))
    (hmem : ∀ a ∈ rem, a ∈ oo ∧ rank oo a ≠ j)
    (hs : rank oo s = j) :
    (pyInsert rem p s).Pairwise (fun a b => rank oo a < rank oo b) := by
  induction rem generalizing p with
  | nil =>
    have : p = 0 := by
      rw [findInsertIdx] at hfind
      cases hfind
      rfl
    subst this
    exact List.Pairwise.cons (by simp) List.Pairwise.nil
  | cons a rest ih =>
    obtain ⟨ha, hna⟩ := hmem a (List.mem_cons_self a rest)
    obtain ⟨i, hi⟩ := listIndex_isSome_of_mem ha
    have hri : rank oo a = i := rank_eq_of_listIndex hi
    simp only [findInsertIdx, hi] at hfind
    by_cases hj : j < i
    · rw [if_pos hj] at hfind
      cases hfind
      rw [show pyInsert (a :: rest) 0 s = s :: a :: rest from rfl]
      refine List.Pairwise.cons ?_ hsort
      intro b hb
      cases hb with
      | head => omega
      | tail _ hb =>
        have := List.rel_of_pairwise_cons hsort hb
        omega
    · rw [if_neg hj] at hfind
      cases hq : findInsertIdx oo j rest with
      | error e => rw [hq] at hfind; cases hfind
      | ok q =>
        rw [hq] at hfind
        have hp : p = q + 1 := by
          simp [Except.map] at hfind
          omega
        subst hp
        rw [pyInsert_cons_succ]
        refine List.Pairwise.cons ?_
          (ih hq (List.pairwise_cons.1 hsort).2
            (fun b hb => hmem b (List.mem_cons_of_mem a hb)))
        intro b hb
        rcases mem_pyInsert.1 hb with rfl | hb
        · omega
        · exact List.rel_of_pairwise_cons hsort hb

/-! ### Characterizations of the three mutating operations -/

theorem select_show_char (st : State) (i : Nat) (ts : String)
    (h : st.remaining_shows ≠ []) :
    ∃ sel, sel ∈ st.remaining_shows ∧
      select_show st i ts = .ok (some ⟨sel, ts, "watched"⟩,
        { st with
          watched_shows := st.watched_shows ++ [⟨sel, ts, "watched"⟩]
          remaining_shows := removeFirst sel st.remaining_shows
          history := st.history ++ [⟨sel, ts, "watched"⟩] }) := by
  cases hrem : st.remaining_shows with
  | nil => exact absurd hrem h
  | cons x xs =>
    refine ⟨(x :: xs).get ⟨i % (x :: xs).length, Nat.mod_lt _ (Nat.succ_pos xs.length)⟩,
      List.get_mem _ _ _, ?_⟩
    unfold select_show
    rw [hrem]
    simp only []
    rw [pyRemove_eq_ok (List.get_mem _ _ _)]
    rfl

theorem select_show_isOk (st : State) (i : Nat) (ts : String) :
    ∃ r st', select_show st i ts = .ok (r, st') := by
  cases hrem : st.remaining_shows with
  | nil =>
    refine ⟨none, st, ?_⟩
    unfold select_show
    rw [hrem]
  | cons x xs =>
    obtain ⟨sel, _, hsel⟩ := select_show_char st i ts (by rw [hrem]; simp)
    exact ⟨_, _, hsel⟩

theorem undo_last_nil {st : State} (h : st.history = []) :
    undo_last st = .ok (none, st) := by
  unfold undo_last
  rw [h]
  rfl

theorem undo_last_char {st : State} {hs : List SelRecord} {last : SelRecord} {p : Nat}
    (hh : st.history = hs ++ [last])
    (hfind : findInsertIdx st.original_order
        ((listIndex last.«show» st.original_order).getD st.original_order.length)
        st.remaining_shows = .ok p)
    (hw : last ∈ st.watched_shows) :
    undo_last st = .ok (some last,
      { st with
        remaining_shows := pyInsert st.remaining_shows p last.«show»
        watched_shows := removeFirst last st.watched_shows
        history := hs }) := by
  unfold undo_last
  rw [hh, List.getLast?_concat]
  simp only []
  rw [List.dropLast_concat, hfind, pyRemove_eq_ok hw]
  rfl

theorem pyInsert_perm {α : Type} (l : List α) (p : Nat) (x : α) :
    (pyInsert l p x).Perm (x :: l) := by
  have h1 : (l.take p ++ x :: l.drop p).Perm (x :: (l.take p ++ l.drop p)) :=
    List.perm_middle
  rw [List.take_append_drop] at h1
  exact h1

/-- Equation lemma for `add_show`: the empty-after-strip failure. -/
theorem add_show_empty {st : State} {name : String} (h : pyStrip name = "") :
    add_show st name = (false, st) := by
  simp [add_show, h]

/-- Equation lemma for `add_show`: the case-insensitive-duplicate failure. -/
theorem add_show_dup {st : State} {name : String} (h1 : pyStrip name ≠ "")
    (h2 : st.original_order.any (fun s => pyLower (pyStrip name) = pyLower s) = true) :
    add_show st name = (false, st) := by
  simp [add_show, h1, h2]

/-- Equation lemma for `add_show`: the success case. -/
theorem add_show_ok {st : State} {name : String} (h1 : pyStrip name ≠ "")
    (h2 : st.original_order.any (fun s => pyLower (pyStrip name) = pyLower s) = false) :
    add_show st name = (true,
      { st with
        original_order := st.original_order ++ [pyStrip name]
        remaining_shows := st.remaining_shows ++ [pyStrip name]
        total_shows := (st.original_order ++ [pyStrip name]).length }) := by
  simp [add_show, h1, h2]

/-! ### Preservation of the invariants -/

theorem init_inv {seed : List String} (h : seed.Nodup) : Inv (initState seed) := by
  refine ⟨rfl, ?_, ?_, h, ?_⟩
  · simpa [itemsOf, initState] using h
  · intro x
    simp [itemsOf, initState]
  · exact sortedByRank_self h

theorem add_inv {st : State} (name : String) (h : Inv st) :
    Inv (add_show st name).2 := by
  by_cases h1 : pyStrip name = ""
  · rw [add_show_empty h1]
    exact h
  · cases h2 : st.original_order.any (fun s => pyLower (pyStrip name) = pyLower s) with
    | true =>
      rw [add_show_dup h1 h2]
      exact h
    | false =>
      rw [add_show_ok h1 h2]
      have hnl : ∀ s ∈ st.original_order, pyLower (pyStrip name) ≠ pyLower s := by
        intro s hs
        simpa using List.any_eq_false.1 h2 s hs
      have ht : pyStrip name ∉ st.original_order := fun hmem => hnl _ hmem rfl
      have htitems : pyStrip name ∉ itemsOf st := fun hmem =>
        ht ((h.itemsIff _).1 hmem)
      have hperm : ((st.remaining_shows ++ [pyStrip name]) ++
          st.watched_shows.map (fun r => r.«show»)).Perm
          (itemsOf st ++ [pyStrip name]) := by
        have p1 : (st.remaining_shows ++ ([pyStrip name] ++
            st.watched_shows.map (fun r => r.«show»))).Perm
            (st.remaining_shows ++ (st.watched_shows.map (fun r => r.«show») ++
              [pyStrip name])) :=
          List.Perm.append_left _ List.perm_append_comm
        rw [← List.append_assoc] at p1
        rw [← List.append_assoc] at p1
        exact p1
      refine ⟨h.logsEq, ?_, ?_, ?_, ?_⟩
      · rw [itemsOf]
        refine hperm.nodup_iff.2 (List.nodup_append.2
          ⟨h.itemsNodup, List.nodup_singleton _, ?_⟩)
        intro a ha hat
        rw [List.mem_singleton] at hat
        exact htitems (hat ▸ ha)
      · intro x
        have hx := h.itemsIff x
        rw [itemsOf] at hx ⊢
        simp only [List.mem_append, List.mem_singleton] at hx ⊢
        tauto
      · refine List.nodup_append.2 ⟨h.ooNodup, List.nodup_singleton _, ?_⟩
        intro a ha hat
        rw [List.mem_singleton] at hat
        exact ht (hat ▸ ha)
      · have hmemoo : ∀ x ∈ st.remaining_shows, x ∈ st.original_order := by
          intro x hx
          exact (h.itemsIff x).1 (List.mem_append.2 (Or.inl hx))
        refine List.pairwise_append.2 ⟨?_, List.pairwise_singleton _ _, ?_⟩
        · refine h.sorted.imp_of_mem ?_
          intro a b ha hb hab
          rw [rank_append_of_mem (hmemoo a ha), rank_append_of_mem (hmemoo b hb)]
          exact hab
        · intro a ha b hb
          rw [List.mem_singleton] at hb
          subst hb
          rw [rank_append_of_mem (hmemoo a ha), rank_append_self ht]
          exact rank_lt_length_of_mem (hmemoo a ha)

theorem select_inv {st st' : State} {i : Nat} {ts : String} {r : Option SelRecord}
    (h : Inv st) (hs : select_show st i ts = .ok (r, st')) : Inv st' := by
  cases hrem : st.remaining_shows with
  | nil =>
    have : select_show st i ts = .ok (none, st) := by
      unfold select_show
      rw [hrem]
    rw [this] at hs
    cases hs
    exact h
  | cons x xs =>
    obtain ⟨sel, hsel, heq⟩ := select_show_char st i ts (by rw [hrem]; simp)
    rw [heq] at hs
    cases hs
    have hseloo : sel ∈ st.original_order :=
      (h.itemsIff sel).1 (List.mem_append.2 (Or.inl hsel))
    have hperm : (removeFirst sel st.remaining_shows ++
        (st.watched_shows ++ [(⟨sel, ts, "watched"⟩ : SelRecord)]).map
          (fun r => r.«show»)).Perm (itemsOf st) := by
      rw [List.map_append]
      have p1 : ((removeFirst sel st.remaining_shows ++
          st.watched_shows.map (fun r => r.«show»)) ++ [sel]).Perm
          ((sel :: removeFirst sel st.remaining_shows) ++
            st.watched_shows.map (fun r => r.«show»)) :=
        List.perm_append_comm
      have p2 : ((sel :: removeFirst sel st.remaining_shows) ++
          st.watched_shows.map (fun r => r.«show»)).Perm (itemsOf st) :=
        List.Perm.append_right _ (perm_removeFirst hsel).symm
      have p3 := p1.trans p2
      rw [List.append_assoc] at p3
      exact p3
    refine ⟨?_, ?_, ?_, h.ooNodup, ?_⟩
    · rw [h.logsEq]
    · rw [itemsOf]
      exact hperm.nodup_iff.2 h.itemsNodup
    · intro x'
      rw [itemsOf]
      rw [hperm.mem_iff]
      exact h.itemsIff x'
    · exact h.sorted.sublist (removeFirst_sublist sel st.remaining_shows)

theorem undo_inv {st st' : State} {r : Option SelRecord}
    (h : Inv st) (hs : undo_last st = .ok (r, st')) : Inv st' := by
  by_cases hnil : st.history = []
  · rw [undo_last_nil hnil] at hs
    cases hs
    exact h
  · have hdecomp : st.history.dropLast ++ [st.history.getLast hnil] = st.history :=
      List.dropLast_append_getLast hnil
    set last := st.history.getLast hnil with hlastdef
    set hs₀ := st.history.dropLast with hs0def
    have hlastw : last ∈ st.watched_shows := by
      rw [h.logsEq]
      exact List.getLast_mem hnil
    have hshowitems : last.«show» ∈ itemsOf st := by
      rw [itemsOf, List.mem_append]
      exact Or.inr (List.mem_map.2 ⟨last, hlastw, rfl⟩)
    have hshowoo : last.«show» ∈ st.original_order := (h.itemsIff _).1 hshowitems
    have hremoo : ∀ x ∈ st.remaining_shows, x ∈ st.original_order := by
      intro x hx
      exact (h.itemsIff x).1 (List.mem_append.2 (Or.inl hx))
    obtain ⟨p, hp⟩ := findInsertIdx_isOk
      ((listIndex last.«show» st.original_order).getD st.original_order.length) hremoo
    have heq := undo_last_char hdecomp.symm hp hlastw
    rw [heq] at hs
    cases hs
    -- facts about the popped record
    have hmapnodup : (st.watched_shows.map (fun r => r.«show»)).Nodup := by
      have := h.itemsNodup
      rw [itemsOf, List.nodup_append] at this
      exact this.2.1
    have hwnodup : st.watched_shows.Nodup := hmapnodup.of_map _
    have hlast0 : last ∉ hs₀ := by
      intro hmem
      have : ¬ (hs₀ ++ [last]).Nodup := by
        rw [List.nodup_append]
        intro ⟨_, _, hd⟩
        exact hd hmem (List.mem_singleton.2 rfl)
      rw [hdecomp] at this
      exact this (h.logsEq ▸ hwnodup)
    have hwform : st.watched_shows = hs₀ ++ [last] := by
      rw [h.logsEq, hdecomp]
    have hrf : removeFirst last st.watched_shows = hs₀ := by
      rw [hwform, removeFirst_append_not_mem hlast0, List.append_nil]
    -- the restored item is not in the pool
    have hnotrem : last.«show» ∉ st.remaining_shows := by
      intro hmem
      have := h.itemsNodup
      rw [itemsOf, List.nodup_append] at this
      exact this.2.2 hmem (List.mem_map.2 ⟨last, hlastw, rfl⟩)
    have hrankj : rank st.original_order last.«show» =
        (listIndex last.«show» st.original_order).getD st.original_order.length := rfl
    -- permutation between new and old item collections
    have hmapform : st.watched_shows.map (fun r => r.«show») =
        hs₀.map (fun r => r.«show») ++ [last.«show»] := by
      rw [hwform, List.map_append]
      rfl
    have hperm : (pyInsert st.remaining_shows p last.«show» ++
        hs₀.map (fun r => r.«show»)).Perm (itemsOf st) := by
      have p1 : (pyInsert st.remaining_shows p last.«show» ++
          hs₀.map (fun r => r.«show»)).Perm
          ((last.«show» :: st.remaining_shows) ++ hs₀.map (fun r => r.«show»)) :=
        List.Perm.append_right _ (pyInsert_perm _ _ _)
      have p2 : (st.remaining_shows ++
          (last.«show» :: hs₀.map (fun r => r.«show»))).Perm
          (last.«show» :: (st.remaining_shows ++ hs₀.map (fun r => r.«show»))) :=
        List.perm_middle
      have pcomm : (([last.«show»] : List String) ++
          hs₀.map (fun r => r.«show»)).Perm
          (hs₀.map (fun r => r.«show») ++ [last.«show»]) :=
        List.perm_append_comm
      have p3 : (st.remaining_shows ++
          ((last.«show» :: hs₀.map (fun r => r.«show»)) : List String)).Perm
          (st.remaining_shows ++ (hs₀.map (fun r => r.«show») ++ [last.«show»])) :=
        List.Perm.append_left _ pcomm
      have p4 : (pyInsert st.remaining_shows p last.«show» ++
          hs₀.map (fun r => r.«show»)).Perm
          (st.remaining_shows ++ (hs₀.map (fun r => r.«show») ++ [last.«show»])) :=
        (p1.trans p2.symm).trans p3
      have e1 : st.remaining_shows ++ (hs₀.map (fun r => r.«show») ++ [last.«show»]) =
          itemsOf st := by
        rw [itemsOf, hmapform]
      rw [e1] at p4
      exact p4
    refine ⟨?_, ?_, ?_, h.ooNodup, ?_⟩
    · rw [hrf]
    · rw [itemsOf]
      rw [hrf]
      exact hperm.nodup_iff.2 h.itemsNodup
    · intro x
      rw [itemsOf, hrf, hperm.mem_iff]
      exact h.itemsIff x
    · refine findInsertIdx_sorted_insert hp h.sorted ?_ hrankj.symm
      intro a ha
      refine ⟨hremoo a ha, fun hr => ?_⟩
      have : a = last.«show» := rank_inj (hremoo a ha) hshowoo (by rw [hr, hrankj])
      exact hnotrem (this ▸ ha)

theorem reachable_inv {seed : List String} {st : State} (hnd : seed.Nodup)
    (h : Reachable seed st) : Inv st := by
  induction h with
  | init => exact init_inv hnd
  | add name st _ ih => exact add_inv name ih
  | select i ts st st' r _ hsel ih => exact select_inv ih hsel
  | undo st st' r _ hundo ih => exact undo_inv ih hundo

theorem init_winv (seed : List String) : WInv (initState seed) := by
  refine ⟨fun x hx => hx, ?_, List.Perm.refl []⟩
  intro r hr
  simp [initState] at hr

theorem add_winv {st : State} (name : String) (h : WInv st) :
    WInv (add_show st name).2 := by
  by_cases h1 : pyStrip name = ""
  · rw [add_show_empty h1]
    exact h
  · cases h2 : st.original_order.any (fun s => pyLower (pyStrip name) = pyLower s) with
    | true =>
      rw [add_show_dup h1 h2]
      exact h
    | false =>
      rw [add_show_ok h1 h2]
      refine ⟨?_, ?_, h.logsPerm⟩
      · intro x hx
        rcases List.mem_append.1 hx with hx | hx
        · exact List.mem_append.2 (Or.inl (h.remSub x hx))
        · exact List.mem_append.2 (Or.inr hx)
      · intro r hr
        exact List.mem_append.2 (Or.inl (h.histSub r hr))

theorem select_winv {st st' : State} {i : Nat} {ts : String} {r : Option SelRecord}
    (h : WInv st) (hs : select_show st i ts = .ok (r, st')) : WInv st' := by
  cases hrem : st.remaining_shows with
  | nil =>
    have : select_show st i ts = .ok (none, st) := by
      unfold select_show
      rw [hrem]
    rw [this] at hs
    cases hs
    exact h
  | cons x xs =>
    obtain ⟨sel, hsel, heq⟩ := select_show_char st i ts (by rw [hrem]; simp)
    rw [heq] at hs
    cases hs
    refine ⟨?_, ?_, ?_⟩
    · intro y hy
      exact h.remSub y ((removeFirst_sublist sel st.remaining_shows).subset hy)
    · intro rec hrec
      rcases List.mem_append.1 hrec with hrec | hrec
      · exact h.histSub rec hrec
      · rw [List.mem_singleton] at hrec
        subst hrec
        exact h.remSub sel hsel
    · exact h.logsPerm.append_right _

theorem undo_winv {st st' : State} {r : Option SelRecord}
    (h : WInv st) (hs : undo_last st = .ok (r, st')) : WInv st' := by
  by_cases hnil : st.history = []
  · rw [undo_last_nil hnil] at hs
    cases hs
    exact h
  · have hdecomp : st.history.dropLast ++ [st.history.getLast hnil] = st.history :=
      List.dropLast_append_getLast hnil
    set last := st.history.getLast hnil with hlastdef
    set hs₀ := st.history.dropLast with hs0def
    have hlasth : last ∈ st.history := List.getLast_mem hnil
    have hlastw : last ∈ st.watched_shows := h.logsPerm.mem_iff.1 hlasth
    have hshowoo : last.«show» ∈ st.original_order := h.histSub last hlasth
    obtain ⟨p, hp⟩ := findInsertIdx_isOk
      ((listIndex last.«show» st.original_order).getD st.original_order.length)
      h.remSub
    have heq := undo_last_char hdecomp.symm hp hlastw
    rw [heq] at hs
    cases hs
    refine ⟨?_, ?_, ?_⟩
    · intro y hy
      rcases mem_pyInsert.1 hy with rfl | hy
      · exact hshowoo
      · exact h.remSub y hy
    · intro rec hrec
      refine h.histSub rec ?_
      rw [← hdecomp]
      exact List.mem_append.2 (Or.inl hrec)
    · have hh1 : st.history.Perm (last :: hs₀) := by
        rw [← hdecomp]
        have hpm : (hs₀ ++ last :: []).Perm (last :: (hs₀ ++ [])) :=
          List.perm_middle
        rw [List.append_nil] at hpm
        exact hpm
      have hh2 : st.history.Perm (last :: removeFirst last st.watched_shows) :=
        h.logsPerm.trans (perm_removeFirst hlastw)
      exact (hh1.symm.trans hh2).cons_inv

theorem reachable_winv {seed : List String} {st : State}
    (h : Reachable seed st) : WInv st := by
  induction h with
  | init => exact init_winv seed
  | add name st _ ih => exact add_winv name ih
  | select i ts st st' r _ hsel ih => exact select_winv ih hsel
  | undo st st' r _ hundo ih => exact undo_winv ih hundo

/-- Under the weak invariant, `undo_last` cannot raise: the rank lookups
inside the loop and the removal from the watched log all succeed. -/
theorem undo_last_isOk_of_winv {st : State} (h : WInv st) :
    ∃ r st', undo_last st = .ok (r, st') := by
  by_cases hnil : st.history = []
  · exact ⟨none, st, undo_last_nil hnil⟩
  · have hdecomp : st.history.dropLast ++ [st.history.getLast hnil] = st.history :=
      List.dropLast_append_getLast hnil
    have hlasth : st.history.getLast hnil ∈ st.history := List.getLast_mem hnil
    have hlastw : st.history.getLast hnil ∈ st.watched_shows :=
      h.logsPerm.mem_iff.1 hlasth
    obtain ⟨p, hp⟩ := findInsertIdx_isOk
      ((listIndex (st.history.getLast hnil).«show» st.original_order).getD
        st.original_order.length) h.remSub
    exact ⟨_, _, undo_last_char hdecomp.symm hp hlastw⟩

/-- `get_progress` never raises: the division is guarded by the
zero-total check. -/
theorem get_progress_isOk (st : State) : ∃ pr, get_progress st = .ok pr := by
  by_cases h : st.total_shows = 0
  · exact ⟨⟨st.watched_shows.length, st.remaining_shows.length, st.total_shows, 0⟩,
      by simp [get_progress, h]⟩
  · have hq : (st.total_shows : ℚ) ≠ 0 := Nat.cast_ne_zero.2 h
    exact ⟨⟨st.watched_shows.length, st.remaining_shows.length, st.total_shows,
      pyRound1 ((st.watched_shows.length : ℚ) / (st.total_shows : ℚ) * 100)⟩,
      by simp [get_progress, h, pyDiv, hq]; rfl⟩

/-- Under the strong invariant, `undo_last` right after a successful
`select_show` restores the entire pre-selection state, pool order
included. -/
theorem select_undo_restore {seed : List String} {st st₁ : State} {i : Nat}
    {ts : String} {r : SelRecord} (hnd : seed.Nodup) (hr : Reachable seed st)
    (hs : select_show st i ts = .ok (some r, st₁)) :
    undo_last st₁ = .ok (some r, st) := by
  have hinv := reachable_inv hnd hr
  cases hrem : st.remaining_shows with
  | nil =>
    have hnone : select_show st i ts = .ok (none, st) := by
      unfold select_show
      rw [hrem]
    rw [hnone] at hs
    simp at hs
  | cons x xs =>
    obtain ⟨sel, hsel, heq⟩ := select_show_char st i ts (by rw [hrem]; simp)
    rw [heq] at hs
    cases hs
    obtain ⟨pre, suf, hl, hpre0, hrf⟩ := removeFirst_decomp hsel
    have hseloo : sel ∈ st.original_order :=
      (hinv.itemsIff sel).1 (List.mem_append.2 (Or.inl hsel))
    have hrw : (⟨sel, ts, "watched"⟩ : SelRecord) ∉ st.watched_shows := by
      intro hmem
      have hitems := hinv.itemsNodup
      rw [itemsOf, List.nodup_append] at hitems
      exact hitems.2.2 hsel (List.mem_map.2 ⟨_, hmem, rfl⟩)
    have hpw : (pre ++ sel :: suf).Pairwise
        (fun a b => rank st.original_order a < rank st.original_order b) := by
      rw [← hl]
      exact hinv.sorted
    obtain ⟨hpwpre, hpwcons, hcross⟩ := List.pairwise_append.1 hpw
    have hponto : ∀ a ∈ pre, a ∈ st.original_order ∧
        rank st.original_order a ≤ rank st.original_order sel := by
      intro a ha
      have haRem : a ∈ st.remaining_shows := by
        rw [hl]
        exact List.mem_append.2 (Or.inl ha)
      refine ⟨(hinv.itemsIff a).1 (List.mem_append.2 (Or.inl haRem)), ?_⟩
      exact le_of_lt (hcross a ha sel (List.mem_cons_self _ _))
    have hsufcase : suf = [] ∨ ∃ b bs, suf = b :: bs ∧ b ∈ st.original_order ∧
        rank st.original_order sel < rank st.original_order b := by
      cases suf with
      | nil => exact Or.inl rfl
      | cons b bs =>
        have hbRem : b ∈ st.remaining_shows := by
          rw [hl]
          exact List.mem_append.2 (Or.inr (List.mem_cons_of_mem _
            (List.mem_cons_self b bs)))
        refine Or.inr ⟨b, bs, rfl, (hinv.itemsIff b).1
          (List.mem_append.2 (Or.inl hbRem)), ?_⟩
        exact List.rel_of_pairwise_cons hpwcons (List.mem_cons_self b bs)
    have hfind : findInsertIdx st.original_order
        (rank st.original_order sel) (pre ++ suf) = .ok pre.length :=
      findInsertIdx_split pre suf hponto hsufcase
    have hfind₁ : findInsertIdx st.original_order
        ((listIndex sel st.original_order).getD st.original_order.length)
        (removeFirst sel st.remaining_shows) = .ok pre.length := by
      rw [hrf]
      exact hfind
    have hw₁ : (⟨sel, ts, "watched"⟩ : SelRecord) ∈
        st.watched_shows ++ [(⟨sel, ts, "watched"⟩ : SelRecord)] :=
      List.mem_append.2 (Or.inr (List.mem_singleton.2 rfl))
    have hh : ({ st with
        watched_shows := st.watched_shows ++ [(⟨sel, ts, "watched"⟩ : SelRecord)]
        remaining_shows := removeFirst sel st.remaining_shows
        history := st.history ++ [(⟨sel, ts, "watched"⟩ : SelRecord)] } : State).history =
        st.history ++ [(⟨sel, ts, "watched"⟩ : SelRecord)] := rfl
    have hchar := undo_last_char hh hfind₁ hw₁
    have e1 : pyInsert (removeFirst sel st.remaining_shows) pre.length sel =
        st.remaining_shows := by
      rw [hrf, pyInsert_at_split]
      exact hl.symm
    have e2 : removeFirst (⟨sel, ts, "watched"⟩ : SelRecord)
        (st.watched_shows ++ [(⟨sel, ts, "watched"⟩ : SelRecord)]) =
        st.watched_shows := by
      have h0 : removeFirst (⟨sel, ts, "watched"⟩ : SelRecord)
          (st.watched_shows ++ (⟨sel, ts, "watched"⟩ : SelRecord) :: []) =
          st.watched_shows ++ [] := removeFirst_append_not_mem hrw
      rw [List.append_nil] at h0
      exact h0
    have hfinal : undo_last
        { st with
          watched_shows := st.watched_shows ++ [(⟨sel, ts, "watched"⟩ : SelRecord)]
          remaining_shows := removeFirst sel st.remaining_shows
          history := st.history ++ [(⟨sel, ts, "watched"⟩ : SelRecord)] } =
        .ok (some (⟨sel, ts, "watched"⟩ : SelRecord),
          { st with
            remaining_shows := pyInsert (removeFirst sel st.remaining_shows)
              pre.length sel
            watched_shows := removeFirst (⟨sel, ts, "watched"⟩ : SelRecord)
              (st.watched_shows ++ [(⟨sel, ts, "watched"⟩ : SelRecord)])
            history := st.history }) := hchar
    rw [e1, e2] at hfinal
    exact hfinal

/-- The loop of `undo_last` computes exactly the specification's insertion
position: the index of the first pool element of strictly larger rank, or
the pool's length when there is none. -/
theorem findInsertIdx_eq_spec {oo rem : List String} (x : String)
    (h : ∀ a ∈ rem, a ∈ oo) :
    findInsertIdx oo (rank oo x) rem = .ok (insertPosSpec oo rem x) := by
  induction rem with
  | nil => rfl
  | cons a rest ih =>
    obtain ⟨i, hi⟩ := listIndex_isSome_of_mem (h a (List.mem_cons_self a rest))
    have hra : rank oo a = i := rank_eq_of_listIndex hi
    simp only [findInsertIdx, hi]
    by_cases hj : rank oo x < i
    · rw [if_pos hj]
      have hpa : (! decide (rank oo x < rank oo a)) = false := by
        simp [hra, hj]
      unfold insertPosSpec
      rw [List.takeWhile_cons, hpa]
      rfl
    · rw [if_neg hj, ih (fun b hb => h b (List.mem_cons_of_mem a hb))]
      have hpa : (! decide (rank oo x < rank oo a)) = true := by
        simp [hra, hj]
      unfold insertPosSpec
      rw [List.takeWhile_cons, hpa]
      rfl

/-- The shape of a successful `undo_last` on a state satisfying the strong
invariant: the popped record comes off the end of the history, and the pool
gains its item exactly at the specification's insertion position. -/
theorem undo_last_shape {st st' : State} {r : SelRecord}
    (hinv : Inv st) (hs : undo_last st = .ok (some r, st')) :
    st'.remaining_shows =
      pyInsert st.remaining_shows
        (insertPosSpec st.original_order st.remaining_shows r.«show») r.«show» := by
  by_cases hnil : st.history = []
  · rw [undo_last_nil hnil] at hs
    simp at hs
  · have hdecomp : st.history.dropLast ++ [st.history.getLast hnil] = st.history :=
      List.dropLast_append_getLast hnil
    have hlasth : st.history.getLast hnil ∈ st.history := List.getLast_mem hnil
    have hlastw : st.history.getLast hnil ∈ st.watched_shows := by
      rw [hinv.logsEq]
      exact hlasth
    have hremoo : ∀ y ∈ st.remaining_shows, y ∈ st.original_order := by
      intro y hy
      exact (hinv.itemsIff y).1 (List.mem_append.2 (Or.inl hy))
    have hfind : findInsertIdx st.original_order
        ((listIndex (st.history.getLast hnil).«show» st.original_order).getD
          st.original_order.length) st.remaining_shows =
        .ok (insertPosSpec st.original_order st.remaining_shows
          (st.history.getLast hnil).«show») :=
      findInsertIdx_eq_spec _ hremoo
    have hchar := undo_last_char hdecomp.symm hfind hlastw
    rw [hchar] at hs
    cases hs
    rfl

/-! ### The load state machine under a caught Parse/Validate failure -/

/-- When the primary check fails with one of the caught exception classes,
`load_progress` renames the file and proceeds through backup, recovery and
reset exactly in this order. -/
theorem loadProgress_caught {pdata : Option JValue} {pb : Option (Option JValue)}
    {initial : List String} {e : PyExc}
    (hfail : primaryTry pdata = .error e) (hcaught : caughtByLoad e = true) :
    loadProgress pdata pb initial =
      match backupTry pdata with
      | .ok st => .ok ⟨.adoptedFromBackup, st, none, some pdata⟩
      | .error _ =>
        match dataRecovery pdata initial with
        | .ok st => .ok ⟨.recovered, st, some (some (serializeState st)), some pdata⟩
        | .error _ =>
          .ok ⟨.reset, resetRaw initial,
            some (some (serializeState (resetRaw initial))), some pdata⟩ := by
  unfold loadProgress
  rw [hfail]
  simp [hcaught]

theorem exbind_ok {α β : Type} (a : α) (f : α → Except PyExc β) :
    (do
      let x ← (Except.ok a : Except PyExc α)
      f x) = f a := rfl

theorem exbind_err {α β : Type} (e : PyExc) (f : α → Except PyExc β) :
    (do
      let x ← (Except.error e : Except PyExc α)
      f x) = Except.error e := rfl

theorem checkKeys_obj (fields : List (String × JValue)) (ks : List String) :
    checkKeys (.obj fields) ks =
      .ok (ks.all (fun k => fields.any (fun p => p.1 = k))) := by
  induction ks with
  | nil => rfl
  | cons k ks ih =>
    show (do
      let b ← jContains (.obj fields) k
      if b then checkKeys (.obj fields) ks else .ok false) = _
    cases h : fields.any (fun p => p.1 = k) with
    | false =>
      rw [show jContains (.obj fields) k = .ok false from by simp [jContains, h],
        exbind_ok]
      simp [List.all_cons, h]
    | true =>
      rw [show jContains (.obj fields) k = .ok true from by simp [jContains, h],
        exbind_ok]
      simp [List.all_cons, h, ih]

theorem backupTry_some (v : JValue) :
    backupTry (some v) = (do
      let kok ← checkKeys v required_keys
      if !kok then .error .key else adoptFields v) := rfl

theorem jSubscript_obj_of_find {fields : List (String × JValue)} {k : String}
    {pr : String × JValue} (h : fields.find? (fun p => p.1 = k) = some pr) :
    jSubscript (.obj fields) k = .ok pr.2 := by
  simp [jSubscript, h]

/-- The backup branch succeeds exactly when the (renamed) file parses to a
dict containing all four required keys whose `original_order` value
supports `len()`; no per-value sequence check is involved. -/
theorem backupTry_ok_iff (pdata : Option JValue) :
    (∃ st, backupTry pdata = .ok st) ↔
    ∃ fields oopair n, pdata = some (.obj fields) ∧
      required_keys.all (fun k => fields.any (fun p => p.1 = k)) = true ∧
      fields.find? (fun p => p.1 = "original_order") = some oopair ∧
      jlen oopair.2 = .ok n := by
  constructor
  · rintro ⟨st, hst⟩
    cases pdata with
    | none => exact Except.noConfusion hst
    | some v =>
      cases v with
      | null => exact Except.noConfusion hst
      | bool b => exact Except.noConfusion hst
      | num m => exact Except.noConfusion hst
      | str s =>
        rw [backupTry_some] at hst
        cases hck : checkKeys (.str s) required_keys with
        | error ec =>
          rw [hck, exbind_err] at hst
          exact Except.noConfusion hst
        | ok b =>
          rw [hck, exbind_ok] at hst
          cases b with
          | false => exact Except.noConfusion hst
          | true =>
            rw [show ((if !true then (.error .key : Except PyExc RawState)
              else adoptFields (.str s))) = adoptFields (.str s) from rfl] at hst
            exact Except.noConfusion hst
      | arr l =>
        rw [backupTry_some] at hst
        cases hck : checkKeys (.arr l) required_keys with
        | error ec =>
          rw [hck, exbind_err] at hst
          exact Except.noConfusion hst
        | ok b =>
          rw [hck, exbind_ok] at hst
          cases b with
          | false => exact Except.noConfusion hst
          | true =>
            rw [show ((if !true then (.error .key : Except PyExc RawState)
              else adoptFields (.arr l))) = adoptFields (.arr l) from rfl] at hst
            exact Except.noConfusion hst
      | obj fields =>
        rw [backupTry_some] at hst
        rw [checkKeys_obj, exbind_ok] at hst
        cases hall : required_keys.all (fun k => fields.any (fun p => p.1 = k)) with
        | false =>
          rw [hall] at hst
          exact Except.noConfusion hst
        | true =>
          rw [hall] at hst
          rw [show ((if !true then (.error .key : Except PyExc RawState)
            else adoptFields (.obj fields))) = adoptFields (.obj fields) from rfl] at hst
          have hany : ∀ k ∈ required_keys, fields.any (fun p => p.1 = k) = true :=
            List.all_eq_true.1 hall
          have hoos : (fields.find? (fun p => p.1 = "original_order")).isSome := by
            rw [List.find?_isSome]
            exact List.any_eq_true.1 (hany "original_order" (by decide))
          obtain ⟨oopair, hoo⟩ := Option.isSome_iff_exists.1 hoos
          unfold adoptFields at hst
          rw [jSubscript_obj_of_find hoo, exbind_ok] at hst
          cases h2 : jSubscript (.obj fields) "remaining" with
          | error e2 =>
            rw [h2, exbind_err] at hst
            exact Except.noConfusion hst
          | ok v2 =>
            rw [h2, exbind_ok] at hst
            cases h3 : jSubscript (.obj fields) "watched" with
            | error e3 =>
              rw [h3, exbind_err] at hst
              exact Except.noConfusion hst
            | ok v3 =>
              rw [h3, exbind_ok] at hst
              cases h4 : jSubscript (.obj fields) "history" with
              | error e4 =>
                rw [h4, exbind_err] at hst
                exact Except.noConfusion hst
              | ok v4 =>
                rw [h4, exbind_ok] at hst
                cases hl : jlen oopair.2 with
                | error el =>
                  rw [hl, exbind_err] at hst
                  exact Except.noConfusion hst
                | ok n =>
                  exact ⟨fields, oopair, n, rfl, hall, hoo, hl⟩
  · rintro ⟨fields, oopair, n, rfl, hall, hoo, hlen⟩
    have hany : ∀ k ∈ required_keys, fields.any (fun p => p.1 = k) = true :=
      List.all_eq_true.1 hall
    have h2s : (fields.find? (fun p => p.1 = "remaining")).isSome := by
      rw [List.find?_isSome]
      exact List.any_eq_true.1 (hany "remaining" (by decide))
    have h3s : (fields.find? (fun p => p.1 = "watched")).isSome := by
      rw [List.find?_isSome]
      exact List.any_eq_true.1 (hany "watched" (by decide))
    have h4s : (fields.find? (fun p => p.1 = "history")).isSome := by
      rw [List.find?_isSome]
      exact List.any_eq_true.1 (hany "history" (by decide))
    obtain ⟨p2, h2⟩ := Option.isSome_iff_exists.1 h2s
    obtain ⟨p3, h3⟩ := Option.isSome_iff_exists.1 h3s
    obtain ⟨p4, h4⟩ := Option.isSome_iff_exists.1 h4s
    refine ⟨⟨oopair.2, p2.2, p3.2, p4.2, n⟩, ?_⟩
    rw [backupTry_some, checkKeys_obj, exbind_ok, hall]
    rw [show ((if !true then (.error .key : Except PyExc RawState)
      else adoptFields (.obj fields))) = adoptFields (.obj fields) from rfl]
    unfold adoptFields
    rw [jSubscript_obj_of_find hoo, exbind_ok, jSubscript_obj_of_find h2, exbind_ok,
      jSubscript_obj_of_find h3, exbind_ok, jSubscript_obj_of_find h4, exbind_ok,
      hlen, exbind_ok]

/-! ## The claims -/

/-- C1 (amended: the constructing seed list must itself be free of
duplicate items — with a duplicated seed the no-duplicates part fails, see
the counterexample): for every sequence of operations from a fresh
construction, the remaining pool together with the watched-log items is
duplicate-free and equals `OriginalOrder` as a set, after construction and
after every operation. -/
theorem c1_theorem {seed : List String} {st : State} (hnd : seed.Nodup)
    (hr : Reachable seed st) :
    (itemsOf st).Nodup ∧ (∀ x, x ∈ itemsOf st ↔ x ∈ st.original_order) :=
  ⟨(reachable_inv hnd hr).itemsNodup, (reachable_inv hnd hr).itemsIff⟩

/-- C1 counterexample: from the seed list `["A", "A"]` (a legitimate
constructor argument), after one successful `select_random` the combined
items of the pool and the watched log contain `"A"` twice, so the claimed
"no duplicate items" fails as stated. -/
theorem c1_counterexample :
    ∃ r st', select_show (initState ["A", "A"]) 0 "t" = .ok (r, st') ∧
      ¬ (itemsOf st').Nodup := by
  refine ⟨_, _, rfl, ?_⟩
  decide

/-- Witness for C1 at the duplicate-free seed `["A", "B"]`. -/
theorem c1_witness :
    (itemsOf (initState ["A", "B"])).Nodup ∧
    (∀ x, x ∈ itemsOf (initState ["A", "B"]) ↔
      x ∈ (initState ["A", "B"]).original_order) :=
  c1_theorem (by decide) Reachable.init

/-- C2 (amended: the seed list must be duplicate-free — see the
counterexample): from a duplicate-free seed, `undo_last` immediately after
a successful `select_random` restores the entire pre-selection state:
the pool's exact content and order, and both logs (hence their lengths). -/
theorem c2_theorem {seed : List String} {st st₁ : State} {i : Nat} {ts : String}
    {r : SelRecord} (hnd : seed.Nodup) (hr : Reachable seed st)
    (hs : select_show st i ts = .ok (some r, st₁)) :
    undo_last st₁ = .ok (some r, st) :=
  select_undo_restore hnd hr hs

/-- C2 counterexample: with the seed `["B", "A", "B"]`, selecting `"A"` and
undoing yields the pool `["B", "B", "A"]`, not the pre-selection pool
`["B", "A", "B"]`: `remove` drops the first occurrence while the
rank-ordered reinsertion puts the item back at a different place. -/
theorem c2_counterexample :
    ∃ r st₁ r' st₂,
      select_show (initState ["B", "A", "B"]) 1 "t" = .ok (some r, st₁) ∧
      undo_last st₁ = .ok (some r', st₂) ∧
      st₂.remaining_shows ≠ (initState ["B", "A", "B"]).remaining_shows := by
  refine ⟨_, _, _, _, rfl, rfl, ?_⟩
  decide

/-- Witness for C2: select then undo on the seed `["A", "B"]`. -/
theorem c2_witness :
    undo_last ⟨["A", "B"], ["B"], [⟨"A", "t", "watched"⟩], 2,
        [⟨"A", "t", "watched"⟩]⟩ =
      .ok (some ⟨"A", "t", "watched"⟩, initState ["A", "B"]) :=
  c2_theorem (by decide) Reachable.init
    (show select_show (initState ["A", "B"]) 0 "t" =
        .ok (some ⟨"A", "t", "watched"⟩,
          ⟨["A", "B"], ["B"], [⟨"A", "t", "watched"⟩], 2,
            [⟨"A", "t", "watched"⟩]⟩) from rfl)

/-- C4 (amended: restricted to states reachable from a fresh construction;
a state adopted from a persisted file that passes Parse and Validate can
still crash `undo_last`, see the counterexample): on every reachable
state, `undo_last`, `select_random` and `get_progress` return without an
uncaught exception (`add_show` is a total function of the embedding and
cannot raise at all). -/
theorem c4_theorem {seed : List String} {st : State} (hr : Reachable seed st) :
    (∃ r st', undo_last st = .ok (r, st')) ∧
    (∀ i ts, ∃ r st', select_show st i ts = .ok (r, st')) ∧
    (∃ pr, get_progress st = .ok pr) :=
  ⟨undo_last_isOk_of_winv (reachable_winv hr),
   fun i ts => select_show_isOk st i ts, get_progress_isOk st⟩

/-- C4 counterexample: the persisted file with `original_order`,
`remaining` and `watched` empty but a one-record `history` passes both the
key check and the type check and is adopted; on the adopted state,
`undo_last` pops the record and then `watched_shows.remove` raises an
uncaught `ValueError`. -/
theorem c4_counterexample :
    ∃ res : LoadResult,
      loadProgress (some (.obj [("original_order", .arr []), ("remaining", .arr []),
        ("watched", .arr []), ("history", .arr [encodeRec ⟨"X", "t", "watched"⟩])]))
        none ["A"] = .ok res ∧
      res.outcome = .adopted ∧
      reprState res.state ⟨[], [], [], 0, [⟨"X", "t", "watched"⟩]⟩ ∧
      undo_last ⟨[], [], [], 0, [⟨"X", "t", "watched"⟩]⟩ = .error .val := by
  exact ⟨_, rfl, rfl, ⟨rfl, rfl, rfl, rfl, rfl⟩, rfl⟩

/-- Witness for C4 at the freshly constructed state on seed `["A"]`. -/
theorem c4_witness :
    (∃ r st', undo_last (initState ["A"]) = .ok (r, st')) ∧
    (∀ i ts, ∃ r st', select_show (initState ["A"]) i ts = .ok (r, st')) ∧
    (∃ pr, get_progress (initState ["A"]) = .ok pr) :=
  c4_theorem Reachable.init

/-- C5 (amended: the seed list must be duplicate-free — with a duplicated
seed the pool is unsorted already at construction, see the counterexample):
on every reachable state the pool is strictly sorted by rank in
`OriginalOrder`, and a successful undo inserts the restored item exactly at
the position preceding the first pool element of larger rank (the end when
none exists), not by unconditional appending. -/
theorem c5_theorem {seed : List String} {st : State} (hnd : seed.Nodup)
    (hr : Reachable seed st) :
    SortedByRank st.original_order st.remaining_shows ∧
    (∀ (r : SelRecord) (st' : State), undo_last st = .ok (some r, st') →
      st'.remaining_shows = pyInsert st.remaining_shows
        (insertPosSpec st.original_order st.remaining_shows r.«show») r.«show») :=
  ⟨(reachable_inv hnd hr).sorted,
   fun _ _ hs => undo_last_shape (reachable_inv hnd hr) hs⟩

/-- C5 counterexample: constructed from the seed `["A", "B", "A"]`, the
pool `["A", "B", "A"]` is not sorted by first index in `OriginalOrder`
(the ranks run 0, 1, 0), so the claim fails as stated for arbitrary seed
lists. -/
theorem c5_counterexample :
    ¬ SortedByRank (initState ["A", "B", "A"]).original_order
      (initState ["A", "B", "A"]).remaining_shows := by
  unfold SortedByRank
  decide

/-- Witness for C5 at the duplicate-free seed `["A", "B"]`. -/
theorem c5_witness :
    SortedByRank (initState ["A", "B"]).original_order
      (initState ["A", "B"]).remaining_shows :=
  (c5_theorem (by decide) Reachable.init).1

/-- C8: `add_item` trims the name; it returns `false` and changes nothing
when the trimmed name is empty or case-insensitively equal to an existing
item; otherwise it appends the trimmed name to both `OriginalOrder` and
`RemainingPool`, sets the total to the new `|OriginalOrder|` (one more
than before), and returns `true`. -/
theorem c8_theorem (st : State) (name : String) :
    (pyStrip name = "" → add_show st name = (false, st)) ∧
    ((∃ s ∈ st.original_order, pyLower (pyStrip name) = pyLower s) →
      add_show st name = (false, st)) ∧
    (pyStrip name ≠ "" →
      (∀ s ∈ st.original_order, pyLower (pyStrip name) ≠ pyLower s) →
      add_show st name = (true,
        { st with
          original_order := st.original_order ++ [pyStrip name]
          remaining_shows := st.remaining_shows ++ [pyStrip name]
          total_shows := st.original_order.length + 1 })) := by
  refine ⟨fun h => add_show_empty h, ?_, ?_⟩
  · rintro ⟨s, hs, he⟩
    by_cases h1 : pyStrip name = ""
    · exact add_show_empty h1
    · exact add_show_dup h1 (List.any_eq_true.2 ⟨s, hs, by simp [he]⟩)
  · intro h1 h2
    have h2' : st.original_order.any
        (fun s => pyLower (pyStrip name) = pyLower s) = false :=
      List.any_eq_false.2 (fun s hs => by simp [h2 s hs])
    have heq := add_show_ok h1 h2'
    have e : (st.original_order ++ [pyStrip name]).length =
        st.original_order.length + 1 := by simp
    rw [heq, e]

/-- Witness for C8: the duplicate case of the spec's own example — adding
`" Breaking Bad "` when `"breaking bad"` is present fails — and a
successful addition. -/
theorem c8_witness :
    add_show (initState ["breaking bad"]) " Breaking Bad " =
      (false, initState ["breaking bad"]) ∧
    add_show (initState ["breaking bad"]) "Oz" =
      (true, ⟨["breaking bad", "Oz"], ["breaking bad", "Oz"], [], 2, []⟩) :=
  ⟨(c8_theorem (initState ["breaking bad"]) " Breaking Bad ").2.1
      ⟨"breaking bad", by decide, by decide⟩,
   (c8_theorem (initState ["breaking bad"]) "Oz").2.2 (by decide) (by decide)⟩

/-- C9: with an empty pool, `select_random` returns the null result and
the state — all four sequences and the total — unchanged. -/
theorem c9_theorem (st : State) (i : Nat) (ts : String)
    (h : st.remaining_shows = []) :
    select_show st i ts = .ok (none, st) := by
  unfold select_show
  rw [h]

/-- Witness for C9 on the empty engine. -/
theorem c9_witness : select_show (initState []) 0 "t" = .ok (none, initState []) :=
  c9_theorem (initState []) 0 "t" rfl

/-- C10: `get_progress` returns the watched, remaining and total counts
and the percentage `round((watched / total) * 100, 1)` when the total is
nonzero and exactly `0` when it is zero, never raising a division error;
it is a pure function of the state. -/
theorem c10_theorem (st : State) :
    get_progress st = .ok
      ⟨st.watched_shows.length, st.remaining_shows.length, st.total_shows,
        if st.total_shows = 0 then 0
        else pyRound1 ((st.watched_shows.length : ℚ) / (st.total_shows : ℚ) * 100)⟩ := by
  by_cases h : st.total_shows = 0
  · simp [get_progress, h]
  · have hq : (st.total_shows : ℚ) ≠ 0 := Nat.cast_ne_zero.2 h
    simp [get_progress, h, pyDiv, hq]
    rfl

/-- C7: when the Data-Recovery step itself raises (after a caught
Parse/Validate failure of the primary and a failed backup attempt), the
engine performs a Full-Reset — `OriginalOrder` and `RemainingPool` become
copies of the seed list, the logs become empty, the total equals the seed
length — persists the reset state, and `load_progress` still returns
normally (`.ok`), never propagating the error. -/
theorem c7_theorem (pdata : Option JValue) (pb : Option (Option JValue))
    (initial : List String) (e e' e'' : PyExc)
    (hfail : primaryTry pdata = .error e) (hcaught : caughtByLoad e = true)
    (hbackup : backupTry pdata = .error e')
    (hrec : dataRecovery pdata initial = .error e'') :
    loadProgress pdata pb initial = .ok ⟨.reset, resetRaw initial,
      some (some (serializeState (resetRaw initial))), some pdata⟩ ∧
    resetRaw initial = ⟨.arr (initial.map .str), .arr (initial.map .str),
      .arr [], .arr [], initial.length⟩ := by
  refine ⟨?_, rfl⟩
  rw [loadProgress_caught hfail hcaught, hbackup, hrec]

/-- Witness for C7: a persisted file containing the JSON array `[1]` fails
the key check, its renamed backup fails it again, and the salvage step
crashes on `data.get` (lists have no `.get`), so the engine resets to the
seed `["A"]`. -/
theorem c7_witness :
    loadProgress (some (.arr [.num 1])) none ["A"] =
      .ok ⟨.reset, resetRaw ["A"], some (some (serializeState (resetRaw ["A"]))),
        some (some (.arr [.num 1]))⟩ :=
  (c7_theorem (some (.arr [.num 1])) none ["A"] .key .key .attr rfl rfl rfl rfl).1

/-- C3 (amended: the backup branch repeats only the Parse and key checks —
the sequence-type validation is not re-applied, and the backup it examines
is the just-renamed corrupted primary, so a backup that parses as a dict
with all four keys is adopted whenever `len()` of its `original_order`
value succeeds, regardless of the values' types): on a caught
Parse/Validate failure the primary is renamed onto the backup path
(overwriting any prior backup), and adoption from backup happens exactly
under that weaker condition. -/
theorem c3_theorem (pdata : Option JValue) (pb : Option (Option JValue))
    (initial : List String) (e : PyExc)
    (hfail : primaryTry pdata = .error e) (hcaught : caughtByLoad e = true) :
    ∃ res : LoadResult, loadProgress pdata pb initial = .ok res ∧
      res.backupAfter = some pdata ∧
      (res.outcome = .adoptedFromBackup ↔
        ∃ fields oopair n, pdata = some (.obj fields) ∧
          required_keys.all (fun k => fields.any (fun p => p.1 = k)) = true ∧
          fields.find? (fun p => p.1 = "original_order") = some oopair ∧
          jlen oopair.2 = .ok n) := by
  rw [loadProgress_caught hfail hcaught]
  cases hbt : backupTry pdata with
  | ok st =>
    exact ⟨⟨.adoptedFromBackup, st, none, some pdata⟩, rfl, rfl,
      iff_of_true rfl ((backupTry_ok_iff pdata).1 ⟨st, hbt⟩)⟩
  | error e' =>
    cases hdr : dataRecovery pdata initial with
    | ok st =>
      refine ⟨⟨.recovered, st, some (some (serializeState st)), some pdata⟩,
        rfl, rfl, iff_of_false (fun h => LoadOutcome.noConfusion h) ?_⟩
      intro hex
      obtain ⟨st', hst'⟩ := (backupTry_ok_iff pdata).2 hex
      rw [hbt] at hst'
      exact Except.noConfusion hst'
    | error e'' =>
      refine ⟨⟨.reset, resetRaw initial,
        some (some (serializeState (resetRaw initial))), some pdata⟩,
        rfl, rfl, iff_of_false (fun h => LoadOutcome.noConfusion h) ?_⟩
      intro hex
      obtain ⟨st', hst'⟩ := (backupTry_ok_iff pdata).2 hex
      rw [hbt] at hst'
      exact Except.noConfusion hst'

/-- C3 counterexample: a primary file that parses as a dict with all four
keys but whose `remaining` value is the number `5` fails the type check
(`ValueError`); after the rename, the backup — the same content — parses
and has all four keys but its values are not all sequences, yet it IS
adopted (with `remaining_shows = 5`), contradicting the claim that the
backup must pass the same two checks. -/
theorem c3_counterexample :
    primaryTry (some (.obj [("original_order", .arr []), ("remaining", .num 5),
      ("watched", .arr []), ("history", .arr [])])) = .error .val ∧
    checkTypes (.obj [("original_order", .arr []), ("remaining", .num 5),
      ("watched", .arr []), ("history", .arr [])]) = .ok false ∧
    (loadProgress (some (.obj [("original_order", .arr []), ("remaining", .num 5),
      ("watched", .arr []), ("history", .arr [])])) none ["A"]).map
        (fun res => (res.outcome, res.state.remaining_shows)) =
      .ok (.adoptedFromBackup, .num 5) :=
  ⟨rfl, rfl, rfl⟩

/-- Witness for C3 at an unparseable primary: the file is renamed, and no
backup adoption happens (the renamed content does not parse either). -/
theorem c3_witness :
    ∃ res : LoadResult, loadProgress none none ["A"] = .ok res ∧
      res.backupAfter = some none ∧
      (res.outcome = .adoptedFromBackup ↔
        ∃ fields oopair n, (none : Option JValue) = some (.obj fields) ∧
          required_keys.all (fun k => fields.any (fun p => p.1 = k)) = true ∧
          fields.find? (fun p => p.1 = "original_order") = some oopair ∧
          jlen oopair.2 = .ok n) :=
  c3_theorem none none ["A"] .json rfl rfl

/-! ### Lemmas for the Data-Recovery characterization -/

theorem recoverOrderLoop_map_str (l : List String) : ∀ seen acc,
    recoverOrderLoop seen acc (l.map .str) = .ok (acc ++ dedupCIFrom seen l) := by
  induction l with
  | nil =>
    intro seen acc
    simp [recoverOrderLoop, dedupCIFrom]
  | cons s rest ih =>
    intro seen acc
    by_cases h : pyLower s ∈ seen
    · rw [show recoverOrderLoop seen acc ((s :: rest).map .str) =
        recoverOrderLoop seen acc (rest.map .str) from by
          simp [recoverOrderLoop, h]]
      rw [ih seen acc]
      simp [dedupCIFrom, h]
    · rw [show recoverOrderLoop seen acc ((s :: rest).map .str) =
        recoverOrderLoop (pyLower s :: seen) (acc ++ [s]) (rest.map .str) from by
          simp [recoverOrderLoop, h]]
      rw [ih (pyLower s :: seen) (acc ++ [s])]
      simp [dedupCIFrom, h]

theorem filter_strMem (l ro : List String) :
    (l.map JValue.str).filter (strMemFilter ro) =
      (l.filter (fun t => t ∈ ro)).map .str := by
  induction l with
  | nil => rfl
  | cons a rest ih =>
    by_cases h : a ∈ ro
    · simp [List.filter_cons, strMemFilter, h, ih]
    · simp [List.filter_cons, strMemFilter, h, ih]

theorem mapM_pair_of_mapM {f : JValue → Except PyExc JValue} :
    ∀ (l : List JValue) (l' : List JValue), l.mapM f = .ok l' →
      l.mapM (fun s => do
        let sh ← f s
        Except.ok (s, sh)) = .ok (l.zip l') := by
  intro l
  induction l with
  | nil =>
    intro l' h
    rw [show ([] : List JValue).mapM f = (Except.ok [] : Except PyExc (List JValue))
      from rfl] at h
    have : l' = [] := (Except.ok.inj h).symm
    subst this
    rfl
  | cons a as ih =>
    intro l' h
    rw [List.mapM_cons] at h
    cases hfa : f a with
    | error e =>
      rw [hfa, exbind_err] at h
      exact Except.noConfusion h
    | ok x =>
      rw [hfa, exbind_ok] at h
      cases hmas : as.mapM f with
      | error e =>
        rw [hmas, exbind_err] at h
        exact Except.noConfusion h
      | ok xs =>
        rw [hmas, exbind_ok] at h
        have hl' : l' = x :: xs := (Except.ok.inj h).symm
        subst hl'
        rw [List.mapM_cons, show (do
          let sh ← f a
          Except.ok (a, sh) : Except PyExc (JValue × JValue)) = .ok (a, x) from by
            rw [hfa, exbind_ok], exbind_ok, ih xs hmas, exbind_ok]
        rfl

theorem salvage_of_truthy {d : JValue} {key : String} {v : JValue}
    (htr : jTruthy d = true) (hv : jGetD d key (.arr []) = .ok v) :
    salvage (some d) key = .ok v := by
  unfold salvage
  simp [htr, hv]

/-- The Data-Recovery computation, characterized as the specification words
it: with `rs` the salvaged remaining items, `ss` the salvaged watched-item
names and `initial` the caller's seed list, the rebuilt `OriginalOrder` is
the case-insensitive first-seen deduplication of `rs ++ ss ++ initial`;
the pool and the watched log are filtered to items of the rebuilt order,
and the salvaged history is adopted unchecked. -/
theorem dataRecovery_spec {d : JValue} {initial rs ss : List String}
    {wlist : List JValue} {hist : JValue}
    (htr : jTruthy d = true)
    (hrem : jGetD d "remaining" (.arr []) = .ok (.arr (rs.map .str)))
    (hwat : jGetD d "watched" (.arr []) = .ok (.arr wlist))
    (hhist : jGetD d "history" (.arr []) = .ok hist)
    (hshows : wlist.mapM (fun s => jSubscript s "show") = .ok (ss.map .str)) :
    dataRecovery (some d) initial = .ok
      ⟨.arr ((dedupCI (rs ++ ss ++ initial)).map .str),
       .arr ((rs.filter (fun t => t ∈ dedupCI (rs ++ ss ++ initial))).map .str),
       .arr (((wlist.zip (ss.map JValue.str)).filter
         (fun p => strMemFilter (dedupCI (rs ++ ss ++ initial)) p.2)).map Prod.fst),
       hist,
       (dedupCI (rs ++ ss ++ initial)).length⟩ := by
  unfold dataRecovery
  rw [salvage_of_truthy htr hrem, exbind_ok, salvage_of_truthy htr hwat, exbind_ok,
    salvage_of_truthy htr hhist, exbind_ok,
    show pyIter (.arr wlist) = .ok wlist from rfl, exbind_ok, hshows, exbind_ok,
    show asPyList (.arr (rs.map .str)) = .ok (rs.map .str) from rfl, exbind_ok]
  simp only [show (rs.map JValue.str ++ ss.map JValue.str ++ initial.map JValue.str) =
      ((rs ++ ss ++ initial).map JValue.str) from by
        rw [List.map_append, List.map_append],
    recoverOrderLoop_map_str, exbind_ok, mapM_pair_of_mapM wlist _ hshows,
    List.nil_append,
    show ∀ l, dedupCIFrom [] l = dedupCI l from fun l => rfl,
    filter_strMem]

/-- C6: the Data-Recovery state rebuilds `OriginalOrder` as the
case-insensitive first-seen deduplication of salvaged-remaining ++
salvaged-watched-items ++ seed list, adopts the salvaged sequences
(history unchecked), filters the pool and the watched log to members of
the rebuilt order, and the recovered state is persisted before
construction returns; concretely, an unparseable file with seed
`["A", "B"]` ends with `OriginalOrder = ["A", "B"]`, everything else
empty, the recovered state persisted and the corrupted body sitting at
the backup path. -/
theorem c6_theorem :
    (∀ (d : JValue) (initial rs ss : List String) (wlist : List JValue)
      (hist : JValue),
      jTruthy d = true →
      jGetD d "remaining" (.arr []) = .ok (.arr (rs.map .str)) →
      jGetD d "watched" (.arr []) = .ok (.arr wlist) →
      jGetD d "history" (.arr []) = .ok hist →
      wlist.mapM (fun s => jSubscript s "show") = .ok (ss.map .str) →
      dataRecovery (some d) initial = .ok
        ⟨.arr ((dedupCI (rs ++ ss ++ initial)).map .str),
         .arr ((rs.filter (fun t => t ∈ dedupCI (rs ++ ss ++ initial))).map .str),
         .arr (((wlist.zip (ss.map JValue.str)).filter
           (fun p => strMemFilter (dedupCI (rs ++ ss ++ initial)) p.2)).map Prod.fst),
         hist,
         (dedupCI (rs ++ ss ++ initial)).length⟩) ∧
    (∀ (pdata : Option JValue) (pb : Option (Option JValue)) (initial : List String)
      (e e' : PyExc) (st : RawState),
      primaryTry pdata = .error e → caughtByLoad e = true →
      backupTry pdata = .error e' →
      dataRecovery pdata initial = .ok st →
      loadProgress pdata pb initial =
        .ok ⟨.recovered, st, some (some (serializeState st)), some pdata⟩) ∧
    (∀ pb, loadProgress none pb ["A", "B"] =
      .ok ⟨.recovered, ⟨.arr [.str "A", .str "B"], .arr [], .arr [], .arr [], 2⟩,
        some (some (serializeState
          ⟨.arr [.str "A", .str "B"], .arr [], .arr [], .arr [], 2⟩)),
        some none⟩) := by
  refine ⟨fun d initial rs ss wlist hist htr hrem hwat hhist hshows =>
      dataRecovery_spec htr hrem hwat hhist hshows,
    fun pdata pb initial e e' st hfail hcaught hbackup hrec => ?_,
    fun pb => rfl⟩
  rw [loadProgress_caught hfail hcaught, hbackup, hrec]

/-- Witness for C6: salvaging `remaining = ["b"]` and a watched record for
`"A"` from a type-invalid file, with seed `["a", "C"]` — the rebuilt order
keeps `"b"`, `"A"`, `"C"` and drops the case-duplicate `"a"`. -/
theorem c6_witness :
    dataRecovery (some (.obj [("remaining", .arr [.str "b"]),
        ("watched", .arr [.obj [("show", .str "A"), ("x", .num 1)]])])) ["a", "C"] =
      .ok ⟨.arr ((dedupCI (["b"] ++ ["A"] ++ ["a", "C"])).map .str),
        .arr ((["b"].filter
          (fun t => t ∈ dedupCI (["b"] ++ ["A"] ++ ["a", "C"]))).map .str),
        .arr ((([(.obj [("show", .str "A"), ("x", .num 1)] : JValue)].zip
          (["A"].map JValue.str)).filter
            (fun p => strMemFilter (dedupCI (["b"] ++ ["A"] ++ ["a", "C"])) p.2)).map
          Prod.fst),
        .arr [],
        (dedupCI (["b"] ++ ["A"] ++ ["a", "C"])).length⟩ :=
  c6_theorem.1 _ ["a", "C"] ["b"] ["A"]
    [.obj [("show", .str "A"), ("x", .num 1)]] (.arr []) rfl rfl rfl rfl rfl

end TvShows
